import Mathlib

/-!
Verification development for the `changelogitlab` release tool.

The definitions below are shallow embeddings of the TypeScript source:
`src/gitlab.ts` (author resolution, GitLab release adapter),
`src/config.ts` (configuration resolution), `src/run.ts` (release
orchestration and JSON execution mode) and `src/providers.ts`
(provider gateway).  Network calls are modelled by explicit oracle
parameters (the value the call would have produced), file-system and
HTTP side effects by explicit effect traces, and JavaScript strings by
`String` (or `List Char` where character-level splitting matters).
JavaScript string falsiness is modelled by equality with `""`.
-/

/-! ### Character/string helpers (JS regex and `trim` semantics) -/

/-- Does `need` occur as a prefix of `hay`? (helper for substring search). -/
def matchesAt : List Char → List Char → Bool
  | _, [] => true
  | [], _ :: _ => false
  | c :: cs, d :: ds => c == d && matchesAt cs ds

/-- Does `need` occur as a contiguous subsequence of `hay`? -/
def containsSeq (hay need : List Char) : Bool :=
  match hay with
  | [] => matchesAt [] need
  | _ :: t => matchesAt hay need || containsSeq t need

/-- Lower-cased character list of a string (models the `i` regex flag). -/
def lowerChars (s : String) : List Char :=
  s.toList.map Char.toLower

/-- Models `/pat/i.test(s)` for a literal pattern `pat`: case-insensitive
substring containment. -/
def testCI (pat s : String) : Bool :=
  containsSeq (lowerChars s) (lowerChars pat)

/-- Embeds the `excludeAuthors` regex list of `src/gitlab.ts`:
`[/\[bot\]/i, /dependabot/i, /\(bot\)/i]`, applied to an author name. -/
def isBot (name : String) : Bool :=
  testCI "[bot]" name || testCI "dependabot" name || testCI "(bot)" name

/-! ### Data model (`src/types.ts` shapes used by author resolution) -/

/-- Raw author attribution on a commit: `{name, email}`.  A missing field
is modelled by the empty string (the only falsy string in JS). -/
structure RawAuthor where
  name : String
  email : String
deriving DecidableEq

/-- Commit as consumed by `resolveAuthors`: short hash plus the ordered
author list (index 0 is the primary author). -/
structure Commit where
  shortHash : String
  authors : List RawAuthor
deriving DecidableEq

/-- The `AuthorInfo` record of `src/types.ts`:
`{commits: string[], name, email, login?}`. -/
structure AuthorInfo where
  commits : List String
  name : String
  email : String
  login : Option String := none
deriving DecidableEq

/-- JS truthiness of the optional `login` field (`undefined` and `""` are
falsy). -/
def truthyOpt : Option String → Bool
  | none => false
  | some s => !(s = "")

/-! ### The email → AuthorInfo map of `resolveAuthors` (`src/gitlab.ts`)

The JS `Map` keeps insertion order; we model it as an association list to
which fresh keys are appended at the end (`map.set` on a fresh key) and
whose existing entries can be updated in place (`info.commits.push`). -/

/-- Association-list lookup, modelling `map.get` / `map.has`. -/
def alookup (e : String) : List (String × AuthorInfo) → Option AuthorInfo
  | [] => none
  | (k, v) :: t => if k = e then some v else alookup e t

/-- Association-list in-place update of the entry with key `e` (no-op when
the key is absent), modelling mutation of the shared record. -/
def aupdate (e : String) (f : AuthorInfo → AuthorInfo) :
    List (String × AuthorInfo) → List (String × AuthorInfo)
  | [] => []
  | (k, v) :: t => if k = e then (k, f v) :: t else (k, v) :: aupdate e f t

/-- One pass of the `commit.authors.map((a, idx) => ...)` body of
`resolveAuthors` over an author list starting at index `idx`, threading
the email map.  Returns the updated map together with the emails of the
non-null mapped entries (the commit's `resolvedAuthors`, identified by
their map key). -/
def stepAuthors (sh : String) : List RawAuthor → Nat → List (String × AuthorInfo) →
    List (String × AuthorInfo) × List String
  | [], _, m => (m, [])
  | a :: rest, idx, m =>
    if a.email = "" ∨ a.name = "" then
      stepAuthors sh rest (idx + 1) m
    else if isBot a.name then
      stepAuthors sh rest (idx + 1) m
    else
      let m1 := match alookup a.email m with
        | some _ => m
        | none => m ++ [(a.email, ⟨[], a.name, a.email, none⟩)]
      let m2 := if idx = 0 then
          aupdate a.email (fun i => { i with commits := i.commits ++ [sh] }) m1
        else m1
      let r := stepAuthors sh rest (idx + 1) m2
      (r.1, a.email :: r.2)

/-- Processing of a single commit inside `commits.forEach` of
`resolveAuthors`. -/
def stepCommit (m : List (String × AuthorInfo)) (c : Commit) :
    List (String × AuthorInfo) × List String :=
  stepAuthors c.shortHash c.authors 0 m

/-- The full `commits.forEach` pass of `resolveAuthors`: final email map
plus, per commit, the emails recorded in its `resolvedAuthors`. -/
def buildAuthorMap : List Commit → List (String × AuthorInfo) →
    List (String × AuthorInfo) × List (List String)
  | [], m => (m, [])
  | c :: rest, m =>
    let r1 := stepCommit m c
    let r2 := buildAuthorMap rest r1.1
    (r2.1, r1.2 :: r2.2)

/-! ### Login resolution (`resolveAuthorInfo` of `src/gitlab.ts`)

The two network lookups are oracles: `userSearch email` is the username
found by `GET /users?search=email` filtered by matching email (`none`
when the request failed or no user matched), and `commitAuthor hash` is
the `author_name` of `GET /repository/commits/hash` (`none` when that
request failed).  Both failure modes are swallowed by the source. -/

/-- Embeds `resolveAuthorInfo(options, info)`: only the `login` field can
change; `name`, `email` and `commits` are left untouched. -/
def resolveAuthorInfo (token : String) (userSearch commitAuthor : String → Option String)
    (info : AuthorInfo) : AuthorInfo :=
  if truthyOpt info.login then info
  else if token = "" then info
  else
    let info1 := match userSearch info.email with
      | some u => { info with login := some u }
      | none => info
    if truthyOpt info1.login then info1
    else match info1.commits with
      | [] => info1
      | c :: _ =>
        match commitAuthor c with
        | some an => { info1 with login := some an }
        | none => info1

/-! ### Sort and final dedup of `resolveAuthors` -/

/-- The sort key `a.login || a.name` (JS `||`: an empty-string login falls
back to the name). -/
def keyOf (i : AuthorInfo) : String :=
  match i.login with
  | some s => if s = "" then i.name else s
  | none => i.name

/-- The final `.filter` pass of `resolveAuthors` with its two mutable
sets `loginSet` and `nameSet`, modelled by explicit accumulator lists. -/
def dedupStep : List AuthorInfo → List String → List String → List AuthorInfo
  | [], _, _ => []
  | i :: rest, ls, ns =>
    if truthyOpt i.login then
      if i.login.getD "" ∈ ls then dedupStep rest ls ns
      else i :: dedupStep rest (i.login.getD "" :: ls) ns
    else
      if i.name ∈ ns then dedupStep rest ls ns
      else i :: dedupStep rest ls (i.name :: ns)

/-- The list `Array.from(map.values()).map(resolveAuthorInfo)` of
`resolveAuthors` (the `Promise.all` settles every lookup before the
sort). -/
def resolvedList (token : String) (userSearch commitAuthor : String → Option String)
    (commits : List Commit) : List AuthorInfo :=
  ((buildAuthorMap commits []).1.map Prod.snd).map
    (resolveAuthorInfo token userSearch commitAuthor)

/-- The `.sort((a, b) => (a.login || a.name).localeCompare(b.login || b.name))`
step.  `le` is the total preorder induced by `localeCompare` (abstract,
since it is locale-dependent); ECMAScript `Array.prototype.sort` is a
stable sort, modelled by insertion sort. -/
def sortedList (le : String → String → Bool) (token : String)
    (userSearch commitAuthor : String → Option String) (commits : List Commit) :
    List AuthorInfo :=
  List.insertionSort (fun a b : AuthorInfo => le (keyOf a) (keyOf b) = true)
    (resolvedList token userSearch commitAuthor commits)

/-- Embeds `resolveAuthors(commits, options)` of `src/gitlab.ts`: map
phase, login resolution, locale sort, final dedup. -/
def resolveAuthors (le : String → String → Bool) (token : String)
    (userSearch commitAuthor : String → Option String) (commits : List Commit) :
    List AuthorInfo :=
  dedupStep (sortedList le token userSearch commitAuthor commits) [] []

/-! ### Specification-side characterisations (used to state C1/C3) -/

/-- Validity of a raw author: both fields present and the name is not a
bot pattern — exactly the two early-return guards of the map phase. -/
def validRawAuthor (a : RawAuthor) : Bool :=
  !(a.email = "") && !(a.name = "") && !isBot a.name

/-- Valid occurrence of the email `e`: a valid author carrying `e`. -/
def occPred (e : String) (a : RawAuthor) : Bool :=
  validRawAuthor a && a.email = e

/-- Is `e` the email of the commit's valid primary author (index 0)? -/
def isPrimary (e : String) (c : Commit) : Bool :=
  match c.authors with
  | [] => false
  | a :: _ => occPred e a

/-- Short hashes of the commits whose valid primary author has email `e`,
in commit order. -/
def primaryHashes (commits : List Commit) (e : String) : List String :=
  (commits.filter (isPrimary e)).map Commit.shortHash

/-- All valid author occurrences with email `e`, in processing order. -/
def validOccurrences (commits : List Commit) (e : String) : List RawAuthor :=
  (commits.flatMap Commit.authors).filter (occPred e)

/-! ### GitLab project id (`getProjectId` of `src/gitlab.ts`)

The module-level cache `localProjectId` is the explicit state threaded
through calls.  `fetchRes` is the oracle for
`GET /projects/:encodedRepo` — `.ok id` when the request succeeded with a
numeric `id`, `.error ()` when it failed or returned no numeric `id`
(both raise in the source, leaving the cache unset).  The returned `Bool`
records whether a network request was issued. -/

/-- Embeds one call of `getProjectId(options)` against cache state `s`:
result, new cache state, and whether the API was hit. -/
def getProjectId (fetchRes : Except Unit Int) (s : Option Int) :
    Except Unit Int × Option Int × Bool :=
  match s with
  | some pid => (.ok pid, some pid, false)
  | none =>
    match fetchRes with
    | .ok pid => (.ok pid, some pid, true)
    | .error e => (.error e, none, true)

/-- Module-load initialisation of `localProjectId` from
`process.env.GITLAB_PROJECT_ID`: `envParsed` models the result of
`Number.parseInt` (`none` when the variable is absent or parses to
`NaN`). -/
def initProjectIdState (envParsed : Option Int) : Option Int :=
  envParsed

/-! ### GitLab `sendRelease` (`src/gitlab.ts`)

`fetchExisting` is the oracle for the `GET releases/:tag` existence
probe: `.error ()` when the request threw (caught by the source),
`.ok none` when it succeeded with a falsy body, `.ok (some ())` when it
returned an existing release.  The project id has already been resolved
by `getProjectId`.  The result is the trace of release write requests
`(method, url)` issued. -/

/-- Embeds the POST-vs-PUT decision and the single write request of
`sendRelease(options, content)`. -/
def sendRelease (baseUrlApi : String) (projectId : Int) (toTag : String)
    (fetchExisting : Except Unit (Option Unit)) : List (String × String) :=
  let collectionUrl := baseUrlApi ++ "/projects/" ++ toString projectId ++ "/releases"
  let tagUrl := collectionUrl ++ "/" ++ toTag
  match fetchExisting with
  | .ok (some _) => [("PUT", tagUrl)]
  | .ok none => [("POST", collectionUrl)]
  | .error _ => [("POST", collectionUrl)]

/-! ### Provider gateway (`src/providers.ts`) -/

/-- The two provider adapters registered in the `providers` record. -/
inductive Provider where
  | github
  | gitlab
deriving DecidableEq

/-- Embeds `getProvider(repoProvider)`: table lookup, named error on an
unknown discriminator. -/
def getProvider (repoProvider : String) : Except String Provider :=
  if repoProvider = "github" then .ok .github
  else if repoProvider = "gitlab" then .ok .gitlab
  else .error ("Unsupported repository provider: " ++ repoProvider)

/-- The discriminator actually passed by every unified gateway operation:
`options.repoProvider || 'github'` (JS `||`, so `undefined` and `""`
both select `"github"`). -/
def unifiedDiscriminator (repoProvider : Option String) : String :=
  match repoProvider with
  | none => "github"
  | some s => if s = "" then "github" else s

/-- Effect of a unified gateway operation after provider selection:
delegation to the chosen adapter (which is where network traffic
starts). -/
inductive GatewayEffect where
  | delegate (p : Provider)
deriving DecidableEq

/-- Embeds the shared shape of the unified `sendRelease` /
`resolveAuthors` / `hasTag` / `uploadAssets` wrappers of
`src/providers.ts`: provider selection first, delegation only on
success. -/
def unifiedCall (repoProvider : Option String) :
    Except String Provider × List GatewayEffect :=
  match getProvider (unifiedDiscriminator repoProvider) with
  | .ok p => (.ok p, [.delegate p])
  | .error e => (.error e, [])

/-! ### Asset normalisation (`normalizeAssets` of `src/run.ts`)

Strings are `List Char` here because the semantics is character-level:
`split(',')`, `trim()`, `filter(Boolean)`. -/

/-- Models JavaScript `s.split(',')` (single-character separator; the
empty string splits to `[""]`). -/
def splitComma : List Char → List (List Char)
  | [] => [[]]
  | c :: rest =>
    if c = ',' then [] :: splitComma rest
    else
      match splitComma rest with
      | [] => [[c]]
      | h :: t => (c :: h) :: t

/-- Models `String.prototype.trim`: strip whitespace from both ends. -/
def trimChars (l : List Char) : List Char :=
  ((l.dropWhile Char.isWhitespace).reverse.dropWhile Char.isWhitespace).reverse

/-- The `string | string[]` input of `normalizeAssets` (and of the
`assets` config field). -/
inductive AssetsInput where
  | str : List Char → AssetsInput
  | list : List (List Char) → AssetsInput
deriving DecidableEq

/-- JS truthiness of the optional assets input (`undefined` and `""` are
falsy; every array is truthy). -/
def truthyAssets : Option AssetsInput → Bool
  | none => false
  | some (.str s) => !s.isEmpty
  | some (.list _) => true

/-- Embeds `normalizeAssets(assets)` of `src/run.ts`: early return on a
falsy input, then split on commas, trim, drop empty fragments. -/
def normalizeAssets : Option AssetsInput → List (List Char)
  | none => []
  | some (.str s) =>
    if s.isEmpty then []
    else ((splitComma s).map trimChars).filter (fun x => !x.isEmpty)
  | some (.list l) =>
    (l.flatMap (fun item => (splitComma item).map trimChars)).filter
      (fun x => !x.isEmpty)

/-- Comma-join of a fragment list (the inverse construction used to
relate the string form and the list form of an assets input). -/
def joinComma : List (List Char) → List Char
  | [] => []
  | [x] => x
  | x :: rest => x ++ ',' :: joinComma rest

/-! ### Configuration resolution (`resolveConfig` of `src/config.ts`)

Only the `repo` resolution and its type check are embedded; the other
fields do not interact with claim C7.  `JsVal` models the possible
JavaScript values of the loosely-typed `config.repo` after config-file
merging; `gitRepoRes` is the oracle for the external `getGitRepo`
collaborator (`src/git.ts`, out of the embedded core). -/

/-- Untyped JavaScript value, as far as `config.repo` is concerned. -/
inductive JsVal where
  | undef
  | str (s : String)
  | num (n : Int)
  | bool (b : Bool)
deriving DecidableEq

/-- JS truthiness of a `JsVal`. -/
def truthyJs : JsVal → Bool
  | .undef => false
  | .str s => !(s = "")
  | .num n => !(n = 0)
  | .bool b => b

/-- JS `a || b`. -/
def jsOr (a b : JsVal) : JsVal :=
  if truthyJs a then a else b

/-- Embeds `config.repo = config.repo || config.github || config.gitlab
|| await getGitRepo(config.baseUrl)`. -/
def resolveRepoValue (repo github gitlab gitRepoRes : JsVal) : JsVal :=
  jsOr repo (jsOr github (jsOr gitlab gitRepoRes))

/-- Does `typeof v === 'string'` hold? -/
def isStringVal : JsVal → Bool
  | .str _ => true
  | _ => false

/-- Rough `JSON.stringify` for the error message of `resolveConfig`. -/
def stringifyJs : JsVal → String
  | .undef => "undefined"
  | .str s => "\"" ++ s ++ "\""
  | .num n => toString n
  | .bool b => if b then "true" else "false"

/-- Embeds the `repo` slice of `resolveConfig(options)`: resolve the
value, then `if (typeof config.repo !== 'string') throw new Error(...)`. -/
def resolveConfigRepo (repo github gitlab gitRepoRes : JsVal) :
    Except String JsVal :=
  let v := resolveRepoValue repo github gitlab gitRepoRes
  if isStringVal v then .ok v
  else .error ("Invalid repository, expected a string but got " ++ stringifyJs v)

/-! ### Release orchestration (`src/run.ts`)

`performRelease` is embedded with its configuration slice, two oracles
(`hasTagRes` for the provider `hasTag` probe, `shallowRes` for
`isRepoShallow`) and an explicit trace of the side effects it issues, in
order.  The `hasTagCheck` effect is recorded exactly when the source
awaits `hasTag(config.to, config)`. -/

/-- The configuration fields consulted by `performRelease`,
`buildJsonPayload` and `executeChangelog`. -/
structure RelConfig where
  dry : Bool := false
  output : Option String := none
  token : String := ""
  repoProvider : String := "github"
  fromRef : String := ""
  toRef : String := ""
  repo : String := ""
  releaseRepo : String := ""
  prerelease : Bool := false
  assets : Option AssetsInput := none
deriving DecidableEq

/-- The `ReleaseContext` of `src/run.ts`: `{config, md, commits, webUrl,
compareUrl}` (`webUrl`/`compareUrl` were computed by `prepareRelease`
from the config and markdown). -/
structure ReleaseContext where
  config : RelConfig
  md : String
  commits : List Commit
  webUrl : String
  compareUrl : String
deriving DecidableEq

/-- The `ReleaseOutcome` union of `src/run.ts`. -/
inductive Outcome where
  | dryRun
  | outputSaved
  | released
deriving DecidableEq

/-- The `ReleaseResult` record of `src/run.ts`. -/
structure ReleaseResult where
  outcome : Outcome
  outputPath : Option String := none
  uploadedAssets : Option (List (List Char)) := none
deriving DecidableEq

/-- The `ReleaseErrorCode` union of `src/run.ts`. -/
inductive RelErrorCode where
  | MISSING_TOKEN
  | MISSING_TAG
  | SHALLOW_REPO
deriving DecidableEq

/-- The `ReleaseErrorDetails` record of `src/run.ts`. -/
structure RelErrorDetails where
  webUrl : String
  tokenEnvName : Option String := none
  compareUrl : Option String := none
deriving DecidableEq

/-- The `ReleaseExecutionError` class of `src/run.ts`. -/
structure RelError where
  code : RelErrorCode
  message : String
  details : RelErrorDetails
deriving DecidableEq

/-- Side effects issued by `performRelease`, in program order. -/
inductive Effect where
  | writeFile (path content : String)
  | hasTagCheck (tag : String)
  | sendReleaseCall
  | uploadAssetsCall
deriving DecidableEq

/-- Embeds `getProviderName(provider)` of `src/run.ts`. -/
def getProviderName (p : String) : String :=
  if p = "gitlab" then "GitLab" else "GitHub"

/-- Embeds `getTokenEnvName(provider)` of `src/run.ts`. -/
def getTokenEnvName (p : String) : String :=
  if p = "gitlab" then "GITLAB_TOKEN or GITLAB_PRIVATE_TOKEN"
  else "GITHUB_TOKEN or GITHUB_TOKEN_PATH"

/-- Embeds `getMissingTokenMessage(provider, tokenEnvName)` of
`src/run.ts`. -/
def getMissingTokenMessage (p env : String) : String :=
  "No " ++ getProviderName p ++ " token found, specify it via " ++ env ++
    " env. Release skipped."

/-- Embeds `performRelease(context, options)` of `src/run.ts`: the
strictly ordered checks (dry → output → token → tag → shallow) followed
by `sendRelease` and a conditional `uploadAssets`. -/
def performRelease (ctx : ReleaseContext) (optAssets : Option AssetsInput)
    (hasTagRes shallowRes : Bool) :
    Except RelError ReleaseResult × List Effect :=
  let config := ctx.config
  if config.dry then
    (.ok ⟨.dryRun, none, none⟩, [])
  else
    match config.output with
    | some path => (.ok ⟨.outputSaved, some path, none⟩, [.writeFile path ctx.md])
    | none =>
      if config.token = "" then
        let envName := getTokenEnvName config.repoProvider
        (.error ⟨.MISSING_TOKEN,
          getMissingTokenMessage config.repoProvider envName,
          ⟨ctx.webUrl, some envName, some ctx.compareUrl⟩⟩, [])
      else if !hasTagRes then
        (.error ⟨.MISSING_TAG,
          "Current ref \"" ++ config.toRef ++ "\" is not available as tags on " ++
            getProviderName config.repoProvider ++ ". Release skipped.",
          ⟨ctx.webUrl, none, some ctx.compareUrl⟩⟩, [.hasTagCheck config.toRef])
      else if ctx.commits.isEmpty && shallowRes then
        (.error ⟨.SHALLOW_REPO,
          "The repo seems to be clone shallowly, which make changelog failed to generate. You might want to specify `fetch-depth: 0` in your CI config.",
          ⟨ctx.webUrl, none, some ctx.compareUrl⟩⟩, [.hasTagCheck config.toRef])
      else
        let assetsInput := match optAssets with
          | some a => some a
          | none => config.assets
        let normalized := normalizeAssets assetsInput
        let doUpload := truthyAssets assetsInput && !normalized.isEmpty
        (.ok ⟨.released, none, if normalized.isEmpty then none else some normalized⟩,
          [.hasTagCheck config.toRef, .sendReleaseCall] ++
            (if doUpload then [.uploadAssetsCall] else []))

/-! ### JSON execution mode (`executeChangelog` of `src/run.ts`)

The emitted payload is the object literal of `buildJsonPayload`; it is
modelled as an ordered key/value list so that the exact field names the
consumer sees are part of the model. -/

/-- JSON field value. -/
inductive JsonVal where
  | str (s : String)
  | num (n : Nat)
  | bool (b : Bool)
deriving DecidableEq

/-- Left-to-right non-overlapping removal of the literal `&nbsp;`,
the semantics of `input.replace(/&nbsp;/g, '')`. -/
def stripNbsp : List Char → List Char
  | '&' :: 'n' :: 'b' :: 's' :: 'p' :: ';' :: rest => stripNbsp rest
  | c :: rest => c :: stripNbsp rest
  | [] => []

/-- Embeds `sanitizeMarkdown(input)` of `src/run.ts`: drop every
`&nbsp;`. -/
def sanitizeMarkdown (s : String) : String :=
  String.mk (stripNbsp s.toList)

/-- Embeds `buildJsonPayload(context, markdown)` of `src/run.ts`: the
object literal, with its exact field names and order. -/
def buildJsonPayload (ctx : ReleaseContext) (markdown : String) :
    List (String × JsonVal) :=
  [("md", .str markdown),
   ("from", .str ctx.config.fromRef),
   ("to", .str ctx.config.toRef),
   ("repoProvider", .str ctx.config.repoProvider),
   ("repo", .str ctx.config.repo),
   ("releaseRepo", .str ctx.config.releaseRepo),
   ("prerelease", .bool ctx.config.prerelease),
   ("commitsCount", .num ctx.commits.length),
   ("compareUrl", .str ctx.compareUrl)]

/-- The `ExecutionMode` union of `src/run.ts`. -/
inductive ExecMode where
  | release
  | json
  | printMd
deriving DecidableEq

/-- The `ExecuteChangelogResult` shape of `src/run.ts` (context omitted:
it is the input). -/
structure ExecResult where
  mode : ExecMode
  markdown : String
  jsonPayload : Option (List (String × JsonVal)) := none
  release : Option (Except RelError ReleaseResult × List Effect) := none

/-- Embeds `executeChangelog(options)` of `src/run.ts` after
`prepareRelease` produced `ctx`: mode selection between JSON output,
markdown printing and an actual release. -/
def executeChangelog (ctx : ReleaseContext) (jsonFlag printMdFlag : Bool)
    (optAssets : Option AssetsInput) (hasTagRes shallowRes : Bool) : ExecResult :=
  let markdown := sanitizeMarkdown ctx.md
  if jsonFlag then
    ⟨.json, markdown, some (buildJsonPayload ctx markdown), none⟩
  else if printMdFlag then
    ⟨.printMd, markdown, none, none⟩
  else
    ⟨.release, markdown, none,
      some (performRelease ctx optAssets hasTagRes shallowRes)⟩

/-! ### Concrete fixtures used by witnesses and counterexamples -/

/-- A release context with an all-default configuration (no dry flag, no
output path, no token). -/
def ctxNoToken : ReleaseContext :=
  ⟨{}, "body", [], "https://example/releases/new", "https://example/compare"⟩

/-- A release context used to exercise the JSON execution mode. -/
def ctxJson : ReleaseContext :=
  ⟨{ fromRef := "v1.0.0", toRef := "v1.1.0", repo := "g/p", releaseRepo := "g/p" },
    "hello&nbsp;world", [⟨"abc1234", [⟨"Alice", "alice@example.com"⟩]⟩],
    "https://w", "https://cmp"⟩

/-! ### Claim C4 — missing-token halt in `performRelease` -/

/-- C4: with the dry flag unset, no output path and no token,
`performRelease` halts with a `MISSING_TOKEN` `ReleaseExecutionError`
whose details carry the context's manual-release web URL and the
provider's credential environment-variable name, and its effect trace is
empty — in particular no `hasTag` probe is issued.  Moreover the dry-run
check and the output-path check are evaluated before the token check, in
that order: a set dry flag yields `dry-run` and a configured output path
yields `output-saved`, both regardless of the token. -/
theorem performRelease_missing_token_halts_before_hasTag
    (ctx : ReleaseContext) (optAssets : Option AssetsInput) (hasTagRes shallowRes : Bool)
    (h1 : ctx.config.dry = false) (h2 : ctx.config.output = none)
    (h3 : ctx.config.token = "") :
    performRelease ctx optAssets hasTagRes shallowRes =
      (.error ⟨.MISSING_TOKEN,
        getMissingTokenMessage ctx.config.repoProvider (getTokenEnvName ctx.config.repoProvider),
        ⟨ctx.webUrl, some (getTokenEnvName ctx.config.repoProvider), some ctx.compareUrl⟩⟩, [])
    ∧ (∀ t, Effect.hasTagCheck t ∉ (performRelease ctx optAssets hasTagRes shallowRes).2)
    ∧ (∀ ctx2 : ReleaseContext, ctx2.config.dry = true →
        performRelease ctx2 optAssets hasTagRes shallowRes = (.ok ⟨.dryRun, none, none⟩, []))
    ∧ (∀ (ctx2 : ReleaseContext) (p : String), ctx2.config.dry = false →
        ctx2.config.output = some p →
        performRelease ctx2 optAssets hasTagRes shallowRes =
          (.ok ⟨.outputSaved, some p, none⟩, [.writeFile p ctx2.md])) := by
  refine ⟨?_, ?_, ?_, ?_⟩
  · simp [performRelease, h1, h2, h3]
  · intro t
    simp [performRelease, h1, h2, h3]
  · intro ctx2 hdry
    simp [performRelease, hdry]
  · intro ctx2 p hdry hout
    simp [performRelease, hdry, hout]

/-- Witness for C4 at a concrete context. -/
theorem performRelease_missing_token_halts_before_hasTag_witness :
    performRelease ctxNoToken none true true =
      (.error ⟨.MISSING_TOKEN,
        getMissingTokenMessage ctxNoToken.config.repoProvider
          (getTokenEnvName ctxNoToken.config.repoProvider),
        ⟨ctxNoToken.webUrl, some (getTokenEnvName ctxNoToken.config.repoProvider),
          some ctxNoToken.compareUrl⟩⟩, []) :=
  (performRelease_missing_token_halts_before_hasTag ctxNoToken none true true
    rfl rfl rfl).1

/-! ### Claim C5 — GitLab `sendRelease` issues exactly one of POST/PUT -/

/-- C5: `sendRelease` issues exactly one release write request.  When the
existence probe for the target tag succeeded with a release, the request
is a PUT to the tag-keyed endpoint; when the probe found no release
(failed request or falsy body), it is a POST to the releases
collection. -/
theorem sendRelease_put_iff_existing
    (base : String) (pid : Int) (tag : String) (fx : Except Unit (Option Unit)) :
    (sendRelease base pid tag fx).length = 1
    ∧ (∀ r, fx = .ok (some r) →
        sendRelease base pid tag fx =
          [("PUT", base ++ "/projects/" ++ toString pid ++ "/releases" ++ "/" ++ tag)])
    ∧ (fx = .ok none ∨ fx = .error () →
        sendRelease base pid tag fx =
          [("POST", base ++ "/projects/" ++ toString pid ++ "/releases")]) := by
  refine ⟨?_, ?_, ?_⟩
  · cases fx with
    | ok o => cases o <;> simp [sendRelease]
    | error e => simp [sendRelease]
  · rintro r rfl
    simp [sendRelease]
  · rintro (rfl | rfl) <;> simp [sendRelease]

/-- Witness for C5: an existing release for the tag yields the PUT. -/
theorem sendRelease_put_iff_existing_witness :
    sendRelease "https://gitlab.com/api/v4" 7 "v1.1.0" (.ok (some ())) =
      [("PUT", "https://gitlab.com/api/v4" ++ "/projects/" ++ toString (7 : Int) ++
        "/releases" ++ "/" ++ "v1.1.0")] :=
  (sendRelease_put_iff_existing "https://gitlab.com/api/v4" 7 "v1.1.0"
    (.ok (some ()))).2.1 () rfl

/-! ### Claim C8 — `getProjectId` caches after the first resolution -/

/-- C8: once a call of `getProjectId` succeeded (from the
environment-initialised cache or from one API request), every later call
returns the same identifier, leaves the cache unchanged, and issues no
network request, whatever the network would answer. -/
theorem getProjectId_cached_after_success
    (s : Option Int) (f1 f2 : Except Unit Int) (id : Int) (s1 : Option Int) (b1 : Bool)
    (h : getProjectId f1 s = (.ok id, s1, b1)) :
    getProjectId f2 s1 = (.ok id, s1, false) := by
  cases s with
  | some pid =>
    simp [getProjectId] at h
    obtain ⟨h1, h2, -⟩ := h
    subst h1
    subst h2
    simp [getProjectId]
  | none =>
    cases f1 with
    | ok pid =>
      simp [getProjectId] at h
      obtain ⟨h1, h2, -⟩ := h
      subst h1
      subst h2
      simp [getProjectId]
    | error e =>
      simp [getProjectId] at h

/-- Witness for C8: a first call resolving id 42 over the network, then a
second call that would hit a failing network but never does. -/
theorem getProjectId_cached_after_success_witness :
    getProjectId (.error ()) (some 42) = (.ok 42, some 42, false) :=
  getProjectId_cached_after_success none (.ok 42) (.error ()) 42 (some 42) true rfl

/-! ### Claim C10 — provider gateway selection and its named error -/

/-- C10: every unified gateway operation with an undefined or empty
`repoProvider` selects the GitHub provider and raises no error; and when
a unified call does raise, the discriminator getProvider saw was
non-empty and outside `{github, gitlab}`, the message is the named
`Unsupported repository provider` error, and no delegation (hence no
network traffic) happened. -/
theorem unifiedCall_github_default_error_only_unknown (rp : Option String) :
    ((rp = none ∨ rp = some "") → unifiedCall rp = (.ok .github, [.delegate .github]))
    ∧ (∀ msg, (unifiedCall rp).1 = .error msg →
        unifiedDiscriminator rp ≠ "github" ∧ unifiedDiscriminator rp ≠ "gitlab" ∧
        unifiedDiscriminator rp ≠ "" ∧
        msg = "Unsupported repository provider: " ++ unifiedDiscriminator rp ∧
        (unifiedCall rp).2 = []) := by
  constructor
  · rintro (rfl | rfl) <;> simp [unifiedCall, unifiedDiscriminator, getProvider]
  · intro msg h
    by_cases hg : unifiedDiscriminator rp = "github"
    · simp [unifiedCall, getProvider, hg] at h
    · by_cases hl : unifiedDiscriminator rp = "gitlab"
      · simp [unifiedCall, getProvider, hg, hl] at h
      · have hne : unifiedDiscriminator rp ≠ "" := by
          cases rp with
          | none => simp [unifiedDiscriminator]
          | some s =>
            by_cases hs : s = "" <;> simp [unifiedDiscriminator, hs]
        have hmsg : msg = "Unsupported repository provider: " ++ unifiedDiscriminator rp := by
          simp [unifiedCall, getProvider, hg, hl] at h
          exact h.symm
        exact ⟨hg, hl, hne, hmsg, by simp [unifiedCall, getProvider, hg, hl]⟩

/-- Witness for C10: an undefined `repoProvider` selects GitHub. -/
theorem unifiedCall_github_default_error_only_unknown_witness :
    unifiedCall none = (.ok .github, [.delegate .github]) :=
  (unifiedCall_github_default_error_only_unknown none).1 (Or.inl rfl)

/-! ### Claim C9 — the JSON summary object -/

/-- C9 counterexample: the payload emitted in JSON mode does not carry
the field names `markdown` / `provider` / `commitCount` claimed by the
specification; its actual keys are `md` / `repoProvider` /
`commitsCount`. -/
theorem buildJsonPayload_keys_ne_spec_names :
    ((executeChangelog ctxJson true false none true true).jsonPayload.getD []).map
        Prod.fst ≠
      ["markdown", "from", "to", "provider", "repo", "releaseRepo", "prerelease",
        "commitCount", "compareUrl"] := by
  decide

/-- C9 (amended): in JSON execution mode the result carries exactly the
payload of `buildJsonPayload`, an ordered record with the fields
`{md, from, to, repoProvider, repo, releaseRepo, prerelease,
commitsCount, compareUrl}`, where `md` is the sanitized rendered
markdown, `commitsCount` the number of commits in range and `compareUrl`
the provider compare URL of the context. -/
theorem executeChangelog_json_payload (ctx : ReleaseContext) (printMdFlag : Bool)
    (optAssets : Option AssetsInput) (hasTagRes shallowRes : Bool) :
    executeChangelog ctx true printMdFlag optAssets hasTagRes shallowRes =
      ⟨.json, sanitizeMarkdown ctx.md,
        some (buildJsonPayload ctx (sanitizeMarkdown ctx.md)), none⟩
    ∧ buildJsonPayload ctx (sanitizeMarkdown ctx.md) =
      [("md", .str (sanitizeMarkdown ctx.md)),
       ("from", .str ctx.config.fromRef),
       ("to", .str ctx.config.toRef),
       ("repoProvider", .str ctx.config.repoProvider),
       ("repo", .str ctx.config.repo),
       ("releaseRepo", .str ctx.config.releaseRepo),
       ("prerelease", .bool ctx.config.prerelease),
       ("commitsCount", .num ctx.commits.length),
       ("compareUrl", .str ctx.compareUrl)]
    ∧ (buildJsonPayload ctx (sanitizeMarkdown ctx.md)).map Prod.fst =
      ["md", "from", "to", "repoProvider", "repo", "releaseRepo", "prerelease",
        "commitsCount", "compareUrl"] := by
  refine ⟨?_, rfl, rfl⟩
  simp [executeChangelog]

/-! ### Claim C7 — the repo type check of `resolveConfig` -/

/-- C7 counterexample: a `repo` that resolves to the empty string (all
config candidates falsy, the external `getGitRepo` collaborator yielding
`""`) passes the `typeof config.repo !== 'string'` check, so
`resolveConfig` does not fail on it, contrary to the claimed
"non-empty string" invariant. -/
theorem resolveConfigRepo_accepts_empty_string :
    resolveRepoValue .undef .undef .undef (.str "") = .str "" ∧
    resolveConfigRepo .undef .undef .undef (.str "") = .ok (.str "") :=
  ⟨rfl, rfl⟩

/-- C7 (amended): configuration resolution fails exactly when the
resolved `repo` is not a string: every non-string resolution raises the
`Invalid repository` error (inside `resolveConfig`, hence before any
release-side network access), and every string resolution — including
the empty string — passes the check. -/
theorem resolveConfigRepo_rejects_exactly_nonstrings
    (repo github gitlab gitRepoRes : JsVal) :
    (∀ s, resolveRepoValue repo github gitlab gitRepoRes = .str s →
      resolveConfigRepo repo github gitlab gitRepoRes = .ok (.str s))
    ∧ (isStringVal (resolveRepoValue repo github gitlab gitRepoRes) = false →
      resolveConfigRepo repo github gitlab gitRepoRes =
        .error ("Invalid repository, expected a string but got " ++
          stringifyJs (resolveRepoValue repo github gitlab gitRepoRes))) := by
  constructor
  · intro s hs
    simp [resolveConfigRepo, hs, isStringVal]
  · intro hns
    simp [resolveConfigRepo, hns]

/-- Witness for the amended C7: a numeric `repo` raises the error. -/
theorem resolveConfigRepo_rejects_exactly_nonstrings_witness :
    resolveConfigRepo (.num 5) .undef .undef .undef =
      .error ("Invalid repository, expected a string but got " ++
        stringifyJs (resolveRepoValue (.num 5) .undef .undef .undef)) :=
  (resolveConfigRepo_rejects_exactly_nonstrings (.num 5) .undef .undef .undef).2 rfl

/-! ### Claim C6 — asset normalisation lemmas -/

/-- Splitting never produces the empty fragment list (JS `split` yields
at least one fragment). -/
theorem splitComma_ne_nil : ∀ l : List Char, splitComma l ≠ []
  | [] => by simp [splitComma]
  | c :: rest => by
    by_cases hc : c = ','
    · simp [splitComma, hc]
    · cases h : splitComma rest with
      | nil => simp [splitComma, hc, h]
      | cons x t => simp [splitComma, hc, h]

/-- Splitting distributes over a comma: the separator closes the last
fragment of the left part. -/
theorem splitComma_append (x y : List Char) :
    splitComma (x ++ ',' :: y) = splitComma x ++ splitComma y := by
  induction x with
  | nil => simp [splitComma]
  | cons c cs ih =>
    by_cases hc : c = ','
    · subst hc
      simp [splitComma, ih]
    · have hcs := splitComma_ne_nil cs
      simp only [List.cons_append, splitComma, if_neg hc, List.append_eq]
      rw [ih]
      cases h : splitComma cs with
      | nil => exact absurd h hcs
      | cons a t => simp

/-- Splitting the comma-join of a non-empty fragment list recovers the
concatenation of the splits of the fragments. -/
theorem splitComma_joinComma : ∀ l : List (List Char), l ≠ [] →
    splitComma (joinComma l) = l.flatMap splitComma
  | [], h => absurd rfl h
  | [x], _ => by simp [joinComma]
  | x :: y :: rest, _ => by
    have ih := splitComma_joinComma (y :: rest) (by simp)
    simp only [joinComma, splitComma_append, ih, List.flatMap_cons]

/-- Classification of fragment lists whose comma-join is empty. -/
theorem joinComma_eq_nil : ∀ l : List (List Char), joinComma l = [] →
    l = [] ∨ l = [[]]
  | [], _ => Or.inl rfl
  | [x], h => by
    simp only [joinComma] at h
    subst h
    exact Or.inr rfl
  | x :: y :: rest, h => by
    simp only [joinComma] at h
    rcases List.append_eq_nil.mp h with ⟨-, h2⟩
    simp at h2

/-- C6: a comma-joined string and its pre-split fragment-list form
normalize to the same ordered asset list, for every fragment list; in
particular the string `"a.zip, b.zip"` and the list `["a.zip", "b.zip"]`
both normalize to the two-element list `["a.zip", "b.zip"]`. -/
theorem normalizeAssets_string_list_agree (l : List (List Char)) :
    normalizeAssets (some (.str (joinComma l))) = normalizeAssets (some (.list l))
    ∧ normalizeAssets (some (.str ("a.zip, b.zip".toList))) =
      ["a.zip".toList, "b.zip".toList]
    ∧ normalizeAssets (some (.list ["a.zip".toList, "b.zip".toList])) =
      ["a.zip".toList, "b.zip".toList] := by
  refine ⟨?_, by decide, by decide⟩
  by_cases hl : l = []
  · subst hl
    simp [normalizeAssets, joinComma]
  · by_cases hl2 : l = [[]]
    · subst hl2
      decide
    · have hj : joinComma l ≠ [] := by
        intro h
        rcases joinComma_eq_nil l h with h1 | h1
        · exact hl h1
        · exact hl2 h1
      simp only [normalizeAssets, List.isEmpty_eq_false.mpr hj, if_neg]
      rw [splitComma_joinComma l hl, List.map_flatMap]
      simp

/-! ### Association-list lemmas for the author map -/

/-- Lookup over an appended map: the left part wins. -/
theorem alookup_append (e : String) (m m' : List (String × AuthorInfo)) :
    alookup e (m ++ m') =
      match alookup e m with
      | some v => some v
      | none => alookup e m' := by
  induction m with
  | nil => simp [alookup]
  | cons p t ih =>
    obtain ⟨k, v⟩ := p
    by_cases hk : k = e <;> simp [alookup, hk, ih]

/-- Lookup after updating the same key. -/
theorem alookup_aupdate_self (e : String) (f : AuthorInfo → AuthorInfo)
    (m : List (String × AuthorInfo)) :
    alookup e (aupdate e f m) = (alookup e m).map f := by
  induction m with
  | nil => simp [alookup, aupdate]
  | cons p t ih =>
    obtain ⟨k, v⟩ := p
    by_cases hk : k = e <;> simp [alookup, aupdate, hk, ih]

/-- Lookup after updating a different key. -/
theorem alookup_aupdate_ne (e e' : String) (f : AuthorInfo → AuthorInfo)
    (m : List (String × AuthorInfo)) (h : e ≠ e') :
    alookup e' (aupdate e f m) = alookup e' m := by
  induction m with
  | nil => simp [aupdate]
  | cons p t ih =>
    obtain ⟨k, v⟩ := p
    by_cases hk : k = e
    · have hk2 : ¬k = e' := by
        rw [hk]
        exact h
      simp [alookup, aupdate, hk, hk2, h]
    · by_cases hk' : k = e' <;> simp [alookup, aupdate, hk, hk', Ne.symm h, ih]

/-- Updating does not change the key list. -/
theorem aupdate_keys (e : String) (f : AuthorInfo → AuthorInfo)
    (m : List (String × AuthorInfo)) :
    (aupdate e f m).map Prod.fst = m.map Prod.fst := by
  induction m with
  | nil => rfl
  | cons p t ih =>
    obtain ⟨k, v⟩ := p
    by_cases hk : k = e <;> simp [aupdate, hk, ih]

/-- Absent keys are exactly the keys outside the key list. -/
theorem alookup_eq_none_iff (e : String) (m : List (String × AuthorInfo)) :
    alookup e m = none ↔ e ∉ m.map Prod.fst := by
  induction m with
  | nil => simp [alookup]
  | cons p t ih =>
    obtain ⟨k, v⟩ := p
    by_cases hk : k = e
    · subst hk
      simp [alookup]
    · simp [alookup, hk, Ne.symm hk, ih]

/-! ### Boolean facts about the validity guards -/

/-- An author failing the first guard (missing email or name) is
invalid. -/
theorem validRawAuthor_false_of_empty {a : RawAuthor}
    (h : a.email = "" ∨ a.name = "") : validRawAuthor a = false := by
  rcases h with h | h <;> simp [validRawAuthor, h]

/-- An author failing the bot guard is invalid. -/
theorem validRawAuthor_false_of_bot {a : RawAuthor}
    (h : isBot a.name = true) : validRawAuthor a = false := by
  simp [validRawAuthor, h]

/-- An author passing both guards of the map phase is valid. -/
theorem validRawAuthor_of_guards {a : RawAuthor}
    (h1 : ¬(a.email = "" ∨ a.name = "")) (h2 : ¬isBot a.name = true) :
    validRawAuthor a = true := by
  push_neg at h1
  simp [validRawAuthor, h1.1, h1.2, h2]

/-- Unfolding of validity into its three propositional components. -/
theorem validRawAuthor_iff {a : RawAuthor} :
    validRawAuthor a = true ↔ a.email ≠ "" ∧ a.name ≠ "" ∧ isBot a.name = false := by
  simp [validRawAuthor, and_assoc]

/-! ### The lookup characterisation of the map phase -/

/-- The commit hash recorded by one author-list pass for the entry `e`:
`[sh]` exactly when the pass starts at index 0 and the head author is a
valid occurrence of `e` (the `idx === 0` push of the source), else
nothing. -/
def headPush (sh e : String) (as : List RawAuthor) (idx : Nat) : List String :=
  if idx = 0 then
    match as with
    | [] => []
    | a :: _ => if occPred e a then [sh] else []
  else []

/-- Characterisation of one author-list pass of the map phase: an
existing entry for `e` only gains the `idx === 0` push, and a missing
entry is created from the first valid occurrence of `e` in the list. -/
theorem stepAuthors_fst (sh e : String) (as : List RawAuthor) :
    ∀ (idx : Nat) (m : List (String × AuthorInfo)),
    alookup e (stepAuthors sh as idx m).1 =
      match alookup e m with
      | some i => some { i with commits := i.commits ++ headPush sh e as idx }
      | none =>
        match (as.filter (occPred e)).head? with
        | some a => some ⟨headPush sh e as idx, a.name, a.email, none⟩
        | none => none := by
  induction as with
  | nil =>
    intro idx m
    cases hm : alookup e m with
    | some i => simp [stepAuthors, hm, headPush]
    | none => simp [stepAuthors, hm]
  | cons a rest ih =>
    intro idx m
    by_cases hv : a.email = "" ∨ a.name = ""
    · have hocc : occPred e a = false := by
        simp [occPred, validRawAuthor_false_of_empty hv]
      rw [show stepAuthors sh (a :: rest) idx m = stepAuthors sh rest (idx + 1) m from by
        simp [stepAuthors, hv]]
      rw [ih (idx + 1) m]
      have h1 : headPush sh e rest (idx + 1) = [] := by simp [headPush]
      have h2 : headPush sh e (a :: rest) idx = [] := by
        by_cases hidx : idx = 0 <;> simp [headPush, hidx, hocc]
      have h3 : List.filter (occPred e) (a :: rest) = List.filter (occPred e) rest := by
        simp [List.filter_cons, hocc]
      simp only [h1, h2, h3]
    · by_cases hb : isBot a.name = true
      · have hocc : occPred e a = false := by
          simp [occPred, validRawAuthor_false_of_bot hb]
        rw [show stepAuthors sh (a :: rest) idx m = stepAuthors sh rest (idx + 1) m from by
          simp [stepAuthors, hv, hb]]
        rw [ih (idx + 1) m]
        have h1 : headPush sh e rest (idx + 1) = [] := by simp [headPush]
        have h2 : headPush sh e (a :: rest) idx = [] := by
          by_cases hidx : idx = 0 <;> simp [headPush, hidx, hocc]
        have h3 : List.filter (occPred e) (a :: rest) = List.filter (occPred e) rest := by
          simp [List.filter_cons, hocc]
        simp only [h1, h2, h3]
      · have hva : validRawAuthor a = true := validRawAuthor_of_guards hv hb
        by_cases he : a.email = e
        · subst he
          have hocc : occPred a.email a = true := by simp [occPred, hva]
          cases hma : alookup a.email m with
          | some i0 =>
            by_cases hidx : idx = 0
            · subst hidx
              rw [show stepAuthors sh (a :: rest) 0 m =
                  ((stepAuthors sh rest 1
                      (aupdate a.email (fun i => { i with commits := i.commits ++ [sh] }) m)).1,
                    a.email :: (stepAuthors sh rest 1
                      (aupdate a.email (fun i => { i with commits := i.commits ++ [sh] }) m)).2)
                from by simp [stepAuthors, hv, hb, hma]]
              rw [ih 1 _]
              rw [alookup_aupdate_self, hma]
              have h1 : headPush sh a.email rest 1 = [] := by simp [headPush]
              have h2 : headPush sh a.email (a :: rest) 0 = [sh] := by
                simp [headPush, hocc]
              simp [h1, h2]
            · rw [show stepAuthors sh (a :: rest) idx m =
                  ((stepAuthors sh rest (idx + 1) m).1,
                    a.email :: (stepAuthors sh rest (idx + 1) m).2)
                from by simp [stepAuthors, hv, hb, hma, hidx]]
              rw [ih (idx + 1) m, hma]
              have h1 : headPush sh a.email rest (idx + 1) = [] := by simp [headPush]
              have h2 : headPush sh a.email (a :: rest) idx = [] := by
                simp [headPush, hidx]
              simp [h1, h2]
          | none =>
            have hnew : alookup a.email (m ++ [(a.email, ⟨[], a.name, a.email, none⟩)]) =
                some ⟨[], a.name, a.email, none⟩ := by
              rw [alookup_append, hma]
              simp [alookup]
            by_cases hidx : idx = 0
            · subst hidx
              rw [show stepAuthors sh (a :: rest) 0 m =
                  ((stepAuthors sh rest 1
                      (aupdate a.email (fun i => { i with commits := i.commits ++ [sh] })
                        (m ++ [(a.email, ⟨[], a.name, a.email, none⟩)]))).1,
                    a.email :: (stepAuthors sh rest 1
                      (aupdate a.email (fun i => { i with commits := i.commits ++ [sh] })
                        (m ++ [(a.email, ⟨[], a.name, a.email, none⟩)]))).2)
                from by simp [stepAuthors, hv, hb, hma]]
              rw [ih 1 _]
              rw [alookup_aupdate_self, hnew]
              have h1 : headPush sh a.email rest 1 = [] := by simp [headPush]
              have h2 : headPush sh a.email (a :: rest) 0 = [sh] := by
                simp [headPush, hocc]
              have h3 : List.filter (occPred a.email) (a :: rest) =
                  a :: List.filter (occPred a.email) rest := by
                simp [List.filter_cons, hocc]
              simp [hma, h1, h2, h3]
            · rw [show stepAuthors sh (a :: rest) idx m =
                  ((stepAuthors sh rest (idx + 1)
                      (m ++ [(a.email, ⟨[], a.name, a.email, none⟩)])).1,
                    a.email :: (stepAuthors sh rest (idx + 1)
                      (m ++ [(a.email, ⟨[], a.name, a.email, none⟩)])).2)
                from by simp [stepAuthors, hv, hb, hma, hidx]]
              rw [ih (idx + 1) _, hnew]
              have h1 : headPush sh a.email rest (idx + 1) = [] := by simp [headPush]
              have h2 : headPush sh a.email (a :: rest) idx = [] := by
                simp [headPush, hidx]
              have h3 : List.filter (occPred a.email) (a :: rest) =
                  a :: List.filter (occPred a.email) rest := by
                simp [List.filter_cons, hocc]
              simp [hma, h1, h2, h3]
        · -- a.email ≠ e: the head author's bookkeeping is invisible to `e`
          have hocc : occPred e a = false := by simp [occPred, he]
          have hkey : ∀ m', alookup e (aupdate a.email
              (fun i => { i with commits := i.commits ++ [sh] }) m') = alookup e m' :=
            fun m' => alookup_aupdate_ne a.email e _ m' he
          have happ : alookup e (m ++ [(a.email, ⟨[], a.name, a.email, none⟩)]) =
              alookup e m := by
            rw [alookup_append]
            cases hm : alookup e m <;> simp [alookup, he]
          have h2 : headPush sh e (a :: rest) idx = [] := by
            by_cases hidx : idx = 0 <;> simp [headPush, hidx, hocc]
          have h1 : headPush sh e rest (idx + 1) = [] := by simp [headPush]
          cases hma : alookup a.email m with
          | some i0 =>
            by_cases hidx : idx = 0
            · subst hidx
              rw [show stepAuthors sh (a :: rest) 0 m =
                  ((stepAuthors sh rest 1
                      (aupdate a.email (fun i => { i with commits := i.commits ++ [sh] }) m)).1,
                    a.email :: (stepAuthors sh rest 1
                      (aupdate a.email (fun i => { i with commits := i.commits ++ [sh] }) m)).2)
                from by simp [stepAuthors, hv, hb, hma]]
              rw [ih 1 _, hkey m]
              have h3 : List.filter (occPred e) (a :: rest) = List.filter (occPred e) rest := by
                simp [List.filter_cons, hocc]
              simp only [h1, h2, h3]
            · rw [show stepAuthors sh (a :: rest) idx m =
                  ((stepAuthors sh rest (idx + 1) m).1,
                    a.email :: (stepAuthors sh rest (idx + 1) m).2)
                from by simp [stepAuthors, hv, hb, hma, hidx]]
              rw [ih (idx + 1) m]
              have h3 : List.filter (occPred e) (a :: rest) = List.filter (occPred e) rest := by
                simp [List.filter_cons, hocc]
              simp only [h1, h2, h3]
          | none =>
            by_cases hidx : idx = 0
            · subst hidx
              rw [show stepAuthors sh (a :: rest) 0 m =
                  ((stepAuthors sh rest 1
                      (aupdate a.email (fun i => { i with commits := i.commits ++ [sh] })
                        (m ++ [(a.email, ⟨[], a.name, a.email, none⟩)]))).1,
                    a.email :: (stepAuthors sh rest 1
                      (aupdate a.email (fun i => { i with commits := i.commits ++ [sh] })
                        (m ++ [(a.email, ⟨[], a.name, a.email, none⟩)]))).2)
                from by simp [stepAuthors, hv, hb, hma]]
              rw [ih 1 _, hkey _, happ]
              have h3 : List.filter (occPred e) (a :: rest) = List.filter (occPred e) rest := by
                simp [List.filter_cons, hocc]
              simp only [h1, h2, h3]
            · rw [show stepAuthors sh (a :: rest) idx m =
                  ((stepAuthors sh rest (idx + 1)
                      (m ++ [(a.email, ⟨[], a.name, a.email, none⟩)])).1,
                    a.email :: (stepAuthors sh rest (idx + 1)
                      (m ++ [(a.email, ⟨[], a.name, a.email, none⟩)])).2)
                from by simp [stepAuthors, hv, hb, hma, hidx]]
              rw [ih (idx + 1) _, happ]
              have h3 : List.filter (occPred e) (a :: rest) = List.filter (occPred e) rest := by
                simp [List.filter_cons, hocc]
              simp only [h1, h2, h3]

/-- The push of a full commit pass is exactly the primary-author
credit. -/
theorem headPush_zero (c : Commit) (e : String) :
    headPush c.shortHash e c.authors 0 =
      if isPrimary e c then [c.shortHash] else [] := by
  cases h : c.authors <;> simp [headPush, isPrimary, h]

/-- Primary credit of a commit list splits off its head commit. -/
theorem primaryHashes_cons (c : Commit) (rest : List Commit) (e : String) :
    primaryHashes (c :: rest) e =
      (if isPrimary e c then [c.shortHash] else []) ++ primaryHashes rest e := by
  by_cases hp : isPrimary e c <;> simp [primaryHashes, List.filter_cons, hp]

/-- Valid occurrences of a commit list split off its head commit. -/
theorem validOccurrences_cons (c : Commit) (rest : List Commit) (e : String) :
    validOccurrences (c :: rest) e =
      c.authors.filter (occPred e) ++ validOccurrences rest e := by
  simp [validOccurrences, List.filter_append]

/-- Without a valid occurrence of `e`, the commit has no valid primary
author with email `e`. -/
theorem isPrimary_false_of_filter_nil {c : Commit} {e : String}
    (h : c.authors.filter (occPred e) = []) : isPrimary e c = false := by
  cases ha : c.authors with
  | nil => simp [isPrimary, ha]
  | cons a t =>
    rw [ha] at h
    by_cases hocc : occPred e a = true
    · simp [List.filter_cons, hocc] at h
    · simp [isPrimary, ha]
      simpa using hocc

/-- Characterisation of one commit pass of the map phase. -/
theorem stepCommit_fst (m : List (String × AuthorInfo)) (c : Commit) (e : String) :
    alookup e (stepCommit m c).1 =
      match alookup e m with
      | some i => some { i with commits :=
          i.commits ++ (if isPrimary e c then [c.shortHash] else []) }
      | none =>
        match (c.authors.filter (occPred e)).head? with
        | some a => some ⟨(if isPrimary e c then [c.shortHash] else []),
            a.name, a.email, none⟩
        | none => none := by
  show alookup e (stepAuthors c.shortHash c.authors 0 m).1 = _
  rw [stepAuthors_fst c.shortHash e c.authors 0 m, headPush_zero]

/-- Characterisation of the whole map phase: for every email `e`, the
final map holds an entry for `e` exactly when some commit carries a
valid occurrence of `e`; the entry's name and email come from the first
valid occurrence and its `commits` list is exactly the primary-author
credit. -/
theorem buildAuthorMap_fst (e : String) :
    ∀ (commits : List Commit) (m : List (String × AuthorInfo)),
    alookup e (buildAuthorMap commits m).1 =
      match alookup e m with
      | some i => some { i with commits := i.commits ++ primaryHashes commits e }
      | none =>
        match (validOccurrences commits e).head? with
        | some a => some ⟨primaryHashes commits e, a.name, a.email, none⟩
        | none => none := by
  intro commits
  induction commits with
  | nil =>
    intro m
    cases hm : alookup e m <;>
      simp [buildAuthorMap, hm, primaryHashes, validOccurrences]
  | cons c rest ih =>
    intro m
    rw [show (buildAuthorMap (c :: rest) m).1 = (buildAuthorMap rest (stepCommit m c).1).1
      from by simp [buildAuthorMap]]
    rw [ih _, stepCommit_fst]
    cases hm : alookup e m with
    | some i =>
      simp [primaryHashes_cons, List.append_assoc]
    | none =>
      cases hf : (c.authors.filter (occPred e)).head? with
      | some a =>
        have hv : (validOccurrences (c :: rest) e).head? = some a := by
          rw [validOccurrences_cons]
          simp [hf]
        simp [hv, primaryHashes_cons]
      | none =>
        have hnil : c.authors.filter (occPred e) = [] :=
          List.head?_eq_none_iff.mp hf
        have hp : isPrimary e c = false := isPrimary_false_of_filter_nil hnil
        have hv : validOccurrences (c :: rest) e = validOccurrences rest e := by
          rw [validOccurrences_cons, hnil]
          simp
        have hph : primaryHashes (c :: rest) e = primaryHashes rest e := by
          rw [primaryHashes_cons, hp]
          simp
        rw [hv, hph]

/-! ### Well-formedness of the author map -/

/-- A good map entry: email equal to its key, both non-empty name and
email, and a non-bot name. -/
def goodEntry (p : String × AuthorInfo) : Prop :=
  p.2.email = p.1 ∧ p.1 ≠ "" ∧ p.2.name ≠ "" ∧ isBot p.2.name = false

/-- Well-formed author map: no duplicate email keys, every entry good. -/
def wfMap (m : List (String × AuthorInfo)) : Prop :=
  (m.map Prod.fst).Nodup ∧ ∀ p ∈ m, goodEntry p

/-- Updates that keep name and email keep entries good. -/
theorem aupdate_entries (e : String) (f : AuthorInfo → AuthorInfo)
    (hf : ∀ i, (f i).email = i.email ∧ (f i).name = i.name) :
    ∀ m, (∀ p ∈ m, goodEntry p) → ∀ p ∈ aupdate e f m, goodEntry p := by
  intro m
  induction m with
  | nil =>
    intro _ p hp
    simp [aupdate] at hp
  | cons q t ih =>
    intro hm p hp
    obtain ⟨k, v⟩ := q
    by_cases hk : k = e
    · simp only [aupdate, if_pos hk] at hp
      rcases List.mem_cons.mp hp with rfl | hp'
      · have hg := hm (k, v) (List.mem_cons_self _ _)
        refine ⟨(hf v).1.trans hg.1, hg.2.1, ?_, ?_⟩
        · rw [(hf v).2]
          exact hg.2.2.1
        · rw [(hf v).2]
          exact hg.2.2.2
      · exact hm p (List.mem_cons_of_mem _ hp')
    · simp only [aupdate, if_neg hk] at hp
      rcases List.mem_cons.mp hp with rfl | hp'
      · exact hm (k, v) (List.mem_cons_self _ _)
      · exact ih (fun p hp => hm p (List.mem_cons_of_mem _ hp)) p hp'

/-- One-step unfolding of the map phase on a valid author. -/
theorem stepAuthors_cons_valid (sh : String) (a : RawAuthor) (rest : List RawAuthor)
    (idx : Nat) (m : List (String × AuthorInfo))
    (hv : ¬(a.email = "" ∨ a.name = "")) (hb : ¬isBot a.name = true) :
    (stepAuthors sh (a :: rest) idx m).1 =
      (stepAuthors sh rest (idx + 1)
        (if idx = 0 then
          aupdate a.email (fun i => { i with commits := i.commits ++ [sh] })
            (match alookup a.email m with
              | some _ => m
              | none => m ++ [(a.email, ⟨[], a.name, a.email, none⟩)])
        else
          (match alookup a.email m with
            | some _ => m
            | none => m ++ [(a.email, ⟨[], a.name, a.email, none⟩)]))).1 := by
  by_cases hidx : idx = 0 <;> cases hma : alookup a.email m <;>
    simp [stepAuthors, hv, hb, hma, hidx]

/-- The map phase preserves well-formedness. -/
theorem stepAuthors_wf (sh : String) (as : List RawAuthor) :
    ∀ (idx : Nat) (m : List (String × AuthorInfo)),
    wfMap m → wfMap (stepAuthors sh as idx m).1 := by
  induction as with
  | nil =>
    intro idx m h
    simpa [stepAuthors] using h
  | cons a rest ih =>
    intro idx m h
    by_cases hv : a.email = "" ∨ a.name = ""
    · rw [show (stepAuthors sh (a :: rest) idx m).1 = (stepAuthors sh rest (idx + 1) m).1
        from by simp [stepAuthors, hv]]
      exact ih _ m h
    · by_cases hb : isBot a.name = true
      · rw [show (stepAuthors sh (a :: rest) idx m).1 = (stepAuthors sh rest (idx + 1) m).1
          from by simp [stepAuthors, hv, hb]]
        exact ih _ m h
      · have hva := validRawAuthor_iff.mp (validRawAuthor_of_guards hv hb)
        rw [stepAuthors_cons_valid sh a rest idx m hv hb]
        apply ih
        have hm1 : wfMap (match alookup a.email m with
            | some _ => m
            | none => m ++ [(a.email, ⟨[], a.name, a.email, none⟩)]) := by
          cases hma : alookup a.email m with
          | some i0 => simpa using h
          | none =>
            constructor
            · rw [List.map_append]
              have hnotin : a.email ∉ m.map Prod.fst :=
                (alookup_eq_none_iff a.email m).mp hma
              simp [List.nodup_append, h.1, hnotin]
            · intro p hp
              rcases List.mem_append.mp hp with hp | hp
              · exact h.2 p hp
              · simp only [List.mem_singleton] at hp
                subst hp
                exact ⟨rfl, hva.1, hva.2.1, hva.2.2⟩
        by_cases hidx : idx = 0
        · simp only [if_pos hidx]
          exact ⟨by rw [aupdate_keys]; exact hm1.1,
            aupdate_entries a.email (fun i => { i with commits := i.commits ++ [sh] })
              (fun i => ⟨rfl, rfl⟩) _ hm1.2⟩
        · simpa [hidx] using hm1

/-- The whole `forEach` pass preserves well-formedness. -/
theorem buildAuthorMap_wf : ∀ (commits : List Commit) (m : List (String × AuthorInfo)),
    wfMap m → wfMap (buildAuthorMap commits m).1 := by
  intro commits
  induction commits with
  | nil =>
    intro m h
    simpa [buildAuthorMap] using h
  | cons c rest ih =>
    intro m h
    rw [show (buildAuthorMap (c :: rest) m).1 = (buildAuthorMap rest (stepCommit m c).1).1
      from by simp [buildAuthorMap]]
    exact ih _ (stepAuthors_wf c.shortHash c.authors 0 m h)

/-- The empty map is well-formed. -/
theorem wfMap_nil : wfMap [] :=
  ⟨List.nodup_nil, by simp⟩

/-! ### The recorded `resolvedAuthors` emails -/

/-- One author-list pass records exactly the emails of its valid
authors, in order. -/
theorem stepAuthors_snd (sh : String) (as : List RawAuthor) :
    ∀ (idx : Nat) (m : List (String × AuthorInfo)),
    (stepAuthors sh as idx m).2 = (as.filter validRawAuthor).map RawAuthor.email := by
  induction as with
  | nil =>
    intro idx m
    simp [stepAuthors]
  | cons a rest ih =>
    intro idx m
    by_cases hv : a.email = "" ∨ a.name = ""
    · have hva := validRawAuthor_false_of_empty hv
      rw [show (stepAuthors sh (a :: rest) idx m).2 = (stepAuthors sh rest (idx + 1) m).2
        from by simp [stepAuthors, hv]]
      rw [ih]
      simp [List.filter_cons, hva]
    · by_cases hb : isBot a.name = true
      · have hva := validRawAuthor_false_of_bot hb
        rw [show (stepAuthors sh (a :: rest) idx m).2 = (stepAuthors sh rest (idx + 1) m).2
          from by simp [stepAuthors, hv, hb]]
        rw [ih]
        simp [List.filter_cons, hva]
      · have hva := validRawAuthor_of_guards hv hb
        have hcons : ∀ m2, (stepAuthors sh (a :: rest) idx m).2 =
            a.email :: (stepAuthors sh rest (idx + 1) m2).2 → True := fun _ _ => trivial
        rw [show (stepAuthors sh (a :: rest) idx m).2 =
            a.email :: (stepAuthors sh rest (idx + 1)
              (if idx = 0 then
                aupdate a.email (fun i => { i with commits := i.commits ++ [sh] })
                  (match alookup a.email m with
                    | some _ => m
                    | none => m ++ [(a.email, ⟨[], a.name, a.email, none⟩)])
              else
                (match alookup a.email m with
                  | some _ => m
                  | none => m ++ [(a.email, ⟨[], a.name, a.email, none⟩)]))).2
          from by
            by_cases hidx : idx = 0 <;> cases hma : alookup a.email m <;>
              simp [stepAuthors, hv, hb, hma, hidx]]
        rw [ih]
        simp [List.filter_cons, hva]

/-- The per-commit `resolvedAuthors` email lists of the map phase. -/
theorem buildAuthorMap_snd : ∀ (commits : List Commit) (m : List (String × AuthorInfo)),
    (buildAuthorMap commits m).2 =
      commits.map (fun c => (c.authors.filter validRawAuthor).map RawAuthor.email) := by
  intro commits
  induction commits with
  | nil =>
    intro m
    simp [buildAuthorMap]
  | cons c rest ih =>
    intro m
    rw [show (buildAuthorMap (c :: rest) m).2 =
        (stepCommit m c).2 :: (buildAuthorMap rest (stepCommit m c).1).2
      from by simp [buildAuthorMap]]
    rw [ih]
    rw [show (stepCommit m c).2 = (c.authors.filter validRawAuthor).map RawAuthor.email
      from stepAuthors_snd c.shortHash c.authors 0 m]
    simp

/-! ### Field preservation of login resolution -/

/-- The login-resolution pass leaves name, email and commits
untouched. -/
theorem resolveAuthorInfo_fields (token : String)
    (userSearch commitAuthor : String → Option String) (info : AuthorInfo) :
    (resolveAuthorInfo token userSearch commitAuthor info).name = info.name ∧
    (resolveAuthorInfo token userSearch commitAuthor info).email = info.email ∧
    (resolveAuthorInfo token userSearch commitAuthor info).commits = info.commits := by
  unfold resolveAuthorInfo
  by_cases h1 : truthyOpt info.login = true
  · simp [h1]
  · by_cases h2 : token = ""
    · simp [h1, h2]
    · cases hus : userSearch info.email with
      | some u =>
        by_cases h3 : truthyOpt (some u) = true
        · simp [h1, h2, hus, h3]
        · cases hc : info.commits with
          | nil => simp [h1, h2, hus, h3, hc]
          | cons c cs =>
            cases hca : commitAuthor c <;> simp [h1, h2, hus, h3, hc, hca]
      | none =>
        cases hc : info.commits with
        | nil => simp [h1, h2, hus, hc]
        | cons c cs =>
          cases hca : commitAuthor c <;> simp [h1, h2, hus, hc, hca]

/-! ### Lemmas about the final dedup pass -/

/-- A truthy optional login is a non-empty `some`. -/
theorem truthyOpt_eq_some {o : Option String} (h : truthyOpt o = true) :
    o = some (o.getD "") ∧ o.getD "" ≠ "" := by
  cases o with
  | none => simp [truthyOpt] at h
  | some s =>
    simp [truthyOpt] at h
    simp [h]

/-- The dedup pass returns a sublist of its input. -/
theorem dedupStep_sublist : ∀ (l : List AuthorInfo) (ls ns : List String),
    List.Sublist (dedupStep l ls ns) l := by
  intro l
  induction l with
  | nil =>
    intro ls ns
    simp [dedupStep]
  | cons i rest ih =>
    intro ls ns
    by_cases h1 : truthyOpt i.login = true
    · by_cases h2 : i.login.getD "" ∈ ls
      · rw [show dedupStep (i :: rest) ls ns = dedupStep rest ls ns from by
          simp [dedupStep, h1, h2]]
        exact List.Sublist.cons _ (ih ls ns)
      · rw [show dedupStep (i :: rest) ls ns =
            i :: dedupStep rest (i.login.getD "" :: ls) ns from by
          simp [dedupStep, h1, h2]]
        exact List.Sublist.cons₂ _ (ih _ _)
    · by_cases h2 : i.name ∈ ns
      · rw [show dedupStep (i :: rest) ls ns = dedupStep rest ls ns from by
          simp [dedupStep, h1, h2]]
        exact List.Sublist.cons _ (ih ls ns)
      · rw [show dedupStep (i :: rest) ls ns =
            i :: dedupStep rest ls (i.name :: ns) from by
          simp [dedupStep, h1, h2]]
        exact List.Sublist.cons₂ _ (ih _ _)

/-- Every survivor of the dedup pass avoids the accumulator sets. -/
theorem dedupStep_mem_not_in : ∀ (l : List AuthorInfo) (ls ns : List String)
    (x : AuthorInfo), x ∈ dedupStep l ls ns →
    (truthyOpt x.login = true → x.login.getD "" ∉ ls) ∧
    (truthyOpt x.login = false → x.name ∉ ns) := by
  intro l
  induction l with
  | nil =>
    intro ls ns x hx
    simp [dedupStep] at hx
  | cons i rest ih =>
    intro ls ns x hx
    by_cases h1 : truthyOpt i.login = true
    · by_cases h2 : i.login.getD "" ∈ ls
      · rw [show dedupStep (i :: rest) ls ns = dedupStep rest ls ns from by
          simp [dedupStep, h1, h2]] at hx
        exact ih ls ns x hx
      · rw [show dedupStep (i :: rest) ls ns =
            i :: dedupStep rest (i.login.getD "" :: ls) ns from by
          simp [dedupStep, h1, h2]] at hx
        rcases List.mem_cons.mp hx with rfl | hx'
        · exact ⟨fun _ => h2, fun hf => absurd h1 (by simp [hf])⟩
        · have hmem := ih _ ns x hx'
          refine ⟨fun ht => ?_, hmem.2⟩
          have h3 := hmem.1 ht
          intro hin
          exact h3 (List.mem_cons_of_mem _ hin)
    · by_cases h2 : i.name ∈ ns
      · rw [show dedupStep (i :: rest) ls ns = dedupStep rest ls ns from by
          simp [dedupStep, h1, h2]] at hx
        exact ih ls ns x hx
      · rw [show dedupStep (i :: rest) ls ns =
            i :: dedupStep rest ls (i.name :: ns) from by
          simp [dedupStep, h1, h2]] at hx
        rcases List.mem_cons.mp hx with rfl | hx'
        · exact ⟨fun ht => absurd ht h1, fun _ => h2⟩
        · have hmem := ih ls _ x hx'
          refine ⟨hmem.1, fun hf => ?_⟩
          have h3 := hmem.2 hf
          intro hin
          exact h3 (List.mem_cons_of_mem _ hin)

/-- The dedup pass leaves no duplicate truthy login and no duplicate
name among entries with a falsy login. -/
theorem dedupStep_pairwise : ∀ (l : List AuthorInfo) (ls ns : List String),
    List.Pairwise (fun a b =>
      (truthyOpt a.login = true → truthyOpt b.login = true → a.login ≠ b.login) ∧
      (truthyOpt a.login = false → truthyOpt b.login = false → a.name ≠ b.name))
      (dedupStep l ls ns) := by
  intro l
  induction l with
  | nil =>
    intro ls ns
    simp [dedupStep]
  | cons i rest ih =>
    intro ls ns
    by_cases h1 : truthyOpt i.login = true
    · by_cases h2 : i.login.getD "" ∈ ls
      · rw [show dedupStep (i :: rest) ls ns = dedupStep rest ls ns from by
          simp [dedupStep, h1, h2]]
        exact ih ls ns
      · rw [show dedupStep (i :: rest) ls ns =
            i :: dedupStep rest (i.login.getD "" :: ls) ns from by
          simp [dedupStep, h1, h2]]
        refine List.Pairwise.cons ?_ (ih _ _)
        intro b hb
        constructor
        · intro _ htb
          have hnb := (dedupStep_mem_not_in _ _ _ b hb).1 htb
          intro heq
          apply hnb
          have hbd : b.login.getD "" = i.login.getD "" := by rw [← heq]
          rw [hbd]
          exact List.mem_cons_self _ _
        · intro hf _
          exact absurd h1 (by simp [hf])
    · by_cases h2 : i.name ∈ ns
      · rw [show dedupStep (i :: rest) ls ns = dedupStep rest ls ns from by
          simp [dedupStep, h1, h2]]
        exact ih ls ns
      · rw [show dedupStep (i :: rest) ls ns =
            i :: dedupStep rest ls (i.name :: ns) from by
          simp [dedupStep, h1, h2]]
        refine List.Pairwise.cons ?_ (ih _ _)
        intro b hb
        constructor
        · intro ht _
          exact absurd ht h1
        · intro _ hfb
          have hnb := (dedupStep_mem_not_in _ _ _ b hb).2 hfb
          intro heq
          apply hnb
          rw [← heq]
          exact List.mem_cons_self _ _

/-- Of several entries sharing a truthy login, the first in list order
survives the dedup pass. -/
theorem dedupStep_first_login_kept :
    ∀ (pre : List AuthorInfo) (a : AuthorInfo) (post : List AuthorInfo)
      (ls ns : List String),
    truthyOpt a.login = true → a.login.getD "" ∉ ls →
    (∀ x ∈ pre, x.login ≠ a.login) →
    a ∈ dedupStep (pre ++ a :: post) ls ns := by
  intro pre
  induction pre with
  | nil =>
    intro a post ls ns ht hnotin _
    rw [show dedupStep ([] ++ a :: post) ls ns =
        a :: dedupStep post (a.login.getD "" :: ls) ns from by
      simp [dedupStep, ht, hnotin]]
    exact List.mem_cons_self _ _
  | cons x pre' ih =>
    intro a post ls ns ht hnotin hpre
    have hxa : x.login ≠ a.login := hpre x (List.mem_cons_self _ _)
    have hpre' : ∀ y ∈ pre', y.login ≠ a.login :=
      fun y hy => hpre y (List.mem_cons_of_mem _ hy)
    by_cases h1 : truthyOpt x.login = true
    · by_cases h2 : x.login.getD "" ∈ ls
      · rw [show dedupStep ((x :: pre') ++ a :: post) ls ns =
            dedupStep (pre' ++ a :: post) ls ns from by
          simp [dedupStep, h1, h2]]
        exact ih a post ls ns ht hnotin hpre'
      · rw [show dedupStep ((x :: pre') ++ a :: post) ls ns =
            x :: dedupStep (pre' ++ a :: post) (x.login.getD "" :: ls) ns from by
          simp [dedupStep, h1, h2]]
        apply List.mem_cons_of_mem
        apply ih a post _ ns ht ?_ hpre'
        intro hmem
        rcases List.mem_cons.mp hmem with heq | hmem'
        · obtain ⟨hao, -⟩ := truthyOpt_eq_some ht
          obtain ⟨hxo, -⟩ := truthyOpt_eq_some h1
          apply hxa
          rw [hxo, hao, ← heq]
        · exact hnotin hmem'
    · by_cases h2 : x.name ∈ ns
      · rw [show dedupStep ((x :: pre') ++ a :: post) ls ns =
            dedupStep (pre' ++ a :: post) ls ns from by
          simp [dedupStep, h1, h2]]
        exact ih a post ls ns ht hnotin hpre'
      · rw [show dedupStep ((x :: pre') ++ a :: post) ls ns =
            x :: dedupStep (pre' ++ a :: post) ls (x.name :: ns) from by
          simp [dedupStep, h1, h2]]
        exact List.mem_cons_of_mem _ (ih a post ls _ ht hnotin hpre')

/-! ### Email uniqueness through the pipeline -/

/-- In a well-formed map, the emails of the values are the keys. -/
theorem wfMap_values_emails (m : List (String × AuthorInfo)) (h : wfMap m) :
    (m.map Prod.snd).map AuthorInfo.email = m.map Prod.fst := by
  rw [List.map_map]
  exact List.map_congr_left (fun p hp => (h.2 p hp).1)

/-- Login resolution does not change the email column. -/
theorem resolvedList_emails (token : String)
    (userSearch commitAuthor : String → Option String) (commits : List Commit) :
    (resolvedList token userSearch commitAuthor commits).map AuthorInfo.email =
      ((buildAuthorMap commits []).1.map Prod.snd).map AuthorInfo.email := by
  unfold resolvedList
  rw [List.map_map]
  exact List.map_congr_left
    (fun i _ => (resolveAuthorInfo_fields token userSearch commitAuthor i).2.1)

/-- The contributor output never carries two entries with the same
email. -/
theorem resolveAuthors_emails_nodup (le : String → String → Bool) (token : String)
    (userSearch commitAuthor : String → Option String) (commits : List Commit) :
    ((resolveAuthors le token userSearch commitAuthor commits).map
      AuthorInfo.email).Nodup := by
  have hwf := buildAuthorMap_wf commits [] wfMap_nil
  have h1 : ((resolvedList token userSearch commitAuthor commits).map
      AuthorInfo.email).Nodup := by
    rw [resolvedList_emails, wfMap_values_emails _ hwf]
    exact hwf.1
  have hperm : List.Perm (sortedList le token userSearch commitAuthor commits)
      (resolvedList token userSearch commitAuthor commits) := by
    unfold sortedList
    exact List.perm_insertionSort _ _
  have h2 : ((sortedList le token userSearch commitAuthor commits).map
      AuthorInfo.email).Nodup :=
    ((hperm.map AuthorInfo.email).nodup_iff).mpr h1
  have hsub := dedupStep_sublist (sortedList le token userSearch commitAuthor commits) [] []
  exact (hsub.map AuthorInfo.email).nodup h2

/-! ### Claim C1 — one entry per email, primary-author credit only -/

/-- C1: the author map built by `resolveAuthors` has pairwise-distinct
email keys (so two commits sharing an author email share one
`AuthorInfo`); the entry stored for an email `e` exists exactly when
some commit carries a valid author occurrence of `e`, and its `commits`
field lists precisely the short hashes of the commits whose author at
index 0 is a valid author with email `e` — co-author occurrences at
index ≥ 1 never contribute a hash.  The final contributor list also
carries at most one entry per email. -/
theorem resolveAuthors_email_unique_primary_credit
    (le : String → String → Bool) (token : String)
    (userSearch commitAuthor : String → Option String) (commits : List Commit) :
    ((buildAuthorMap commits []).1.map Prod.fst).Nodup
    ∧ (∀ e, alookup e (buildAuthorMap commits []).1 =
        match (validOccurrences commits e).head? with
        | some a => some ⟨primaryHashes commits e, a.name, a.email, none⟩
        | none => none)
    ∧ ((resolveAuthors le token userSearch commitAuthor commits).map
        AuthorInfo.email).Nodup := by
  refine ⟨(buildAuthorMap_wf commits [] wfMap_nil).1, ?_,
    resolveAuthors_emails_nodup le token userSearch commitAuthor commits⟩
  intro e
  have h := buildAuthorMap_fst e commits []
  simpa [alookup] using h

/-! ### Claim C3 — bot and invalid authors never appear -/

/-- Non-excluded author record: name and email present, name not a bot
pattern. -/
def validEntryProp (i : AuthorInfo) : Prop :=
  i.name ≠ "" ∧ i.email ≠ "" ∧ isBot i.name = false

/-- C3: every record in the contributor output has a present, non-bot
name and a present email; the `resolvedAuthors` recorded for each commit
are exactly its valid (non-bot, fully attributed) authors' emails, and
every such email maps to a record that likewise has a present, non-bot
name — so an author dropped by the exclusion filter never appears in
either place, whatever its position in the commit's author list. -/
theorem resolveAuthors_excludes_bots_and_incomplete
    (le : String → String → Bool) (token : String)
    (userSearch commitAuthor : String → Option String) (commits : List Commit) :
    (∀ i ∈ resolveAuthors le token userSearch commitAuthor commits, validEntryProp i)
    ∧ ((buildAuthorMap commits []).2 =
        commits.map (fun c => (c.authors.filter validRawAuthor).map RawAuthor.email))
    ∧ (∀ es ∈ (buildAuthorMap commits []).2, ∀ e ∈ es,
        ∃ i, alookup e (buildAuthorMap commits []).1 = some i ∧ validEntryProp i) := by
  have hwf := buildAuthorMap_wf commits [] wfMap_nil
  refine ⟨?_, buildAuthorMap_snd commits [], ?_⟩
  · intro i hi
    have hsub := dedupStep_sublist (sortedList le token userSearch commitAuthor commits) [] []
    have hi2 : i ∈ sortedList le token userSearch commitAuthor commits :=
      hsub.subset hi
    have hperm : List.Perm (sortedList le token userSearch commitAuthor commits)
        (resolvedList token userSearch commitAuthor commits) := by
      unfold sortedList
      exact List.perm_insertionSort _ _
    have hi3 : i ∈ resolvedList token userSearch commitAuthor commits :=
      hperm.mem_iff.mp hi2
    unfold resolvedList at hi3
    obtain ⟨j, hj, rfl⟩ := List.mem_map.mp hi3
    obtain ⟨p, hp, rfl⟩ := List.mem_map.mp hj
    have hg := hwf.2 p hp
    have hf := resolveAuthorInfo_fields token userSearch commitAuthor p.2
    refine ⟨?_, ?_, ?_⟩
    · rw [hf.1]
      exact hg.2.2.1
    · rw [hf.2.1, hg.1]
      exact hg.2.1
    · rw [hf.1]
      exact hg.2.2.2
  · intro es hes e he
    rw [buildAuthorMap_snd commits []] at hes
    obtain ⟨c, hc, rfl⟩ := List.mem_map.mp hes
    obtain ⟨a, ha, rfl⟩ := List.mem_map.mp he
    have hav : validRawAuthor a = true := (List.mem_filter.mp ha).2
    have hamem : a ∈ c.authors := (List.mem_filter.mp ha).1
    have hocc : a ∈ validOccurrences commits a.email := by
      unfold validOccurrences
      apply List.mem_filter.mpr
      refine ⟨List.mem_flatMap.mpr ⟨c, hc, hamem⟩, ?_⟩
      simp [occPred, hav]
    have hne : validOccurrences commits a.email ≠ [] := List.ne_nil_of_mem hocc
    cases hh : (validOccurrences commits a.email).head? with
    | none => exact absurd (List.head?_eq_none_iff.mp hh) hne
    | some a0 =>
      have ha0mem : a0 ∈ validOccurrences commits a.email := by
        cases hv : validOccurrences commits a.email with
        | nil => exact absurd hv hne
        | cons b t =>
          rw [hv] at hh
          simp at hh
          rw [hh]
          exact List.mem_cons_self _ _
      have h0 := List.mem_filter.mp (by
        have := ha0mem
        unfold validOccurrences at this
        exact this)
      have hv0 : validRawAuthor a0 = true := by
        have h2 := h0.2
        simp [occPred] at h2
        exact h2.1
      have hv0p := validRawAuthor_iff.mp hv0
      refine ⟨⟨primaryHashes commits a.email, a0.name, a0.email, none⟩, ?_, ?_⟩
      · rw [buildAuthorMap_fst a.email commits []]
        simp [alookup, hh]
      · exact ⟨hv0p.2.1, hv0p.1, hv0p.2.2⟩

/-! ### Claim C2 — sorted and deduplicated contributor list -/

/-- The three C2 properties of the contributor output: sorted by
`login || name` under the comparator, no duplicate truthy login and no
duplicate name among falsy-login entries, and the first occurrence of a
truthy login in sort order is kept. -/
def sortedDedupSpec (le : String → String → Bool) (token : String)
    (userSearch commitAuthor : String → Option String) (commits : List Commit) : Prop :=
  List.Sorted (fun a b : AuthorInfo => le (keyOf a) (keyOf b) = true)
    (resolveAuthors le token userSearch commitAuthor commits)
  ∧ List.Pairwise (fun a b : AuthorInfo =>
      (truthyOpt a.login = true → truthyOpt b.login = true → a.login ≠ b.login)
      ∧ (truthyOpt a.login = false → truthyOpt b.login = false → a.name ≠ b.name))
    (resolveAuthors le token userSearch commitAuthor commits)
  ∧ ∀ (pre : List AuthorInfo) (a : AuthorInfo) (post : List AuthorInfo),
      sortedList le token userSearch commitAuthor commits = pre ++ a :: post →
      truthyOpt a.login = true → (∀ x ∈ pre, x.login ≠ a.login) →
      a ∈ resolveAuthors le token userSearch commitAuthor commits

/-- C2: for any total transitive comparator (the locale order of
`localeCompare`), the contributor list is sorted by `login || name`,
contains no two entries with the same truthy login and no two
falsy-login entries with the same name, and of several entries sharing a
truthy login the first in sort order is the one kept. -/
theorem resolveAuthors_sorted_dedup (le : String → String → Bool) (token : String)
    (userSearch commitAuthor : String → Option String) (commits : List Commit)
    (htot : ∀ a b, le a b = true ∨ le b a = true)
    (htrans : ∀ a b c, le a b = true → le b c = true → le a c = true) :
    sortedDedupSpec le token userSearch commitAuthor commits := by
  haveI : IsTotal AuthorInfo (fun a b : AuthorInfo => le (keyOf a) (keyOf b) = true) :=
    ⟨fun a b => htot _ _⟩
  haveI : IsTrans AuthorInfo (fun a b : AuthorInfo => le (keyOf a) (keyOf b) = true) :=
    ⟨fun a b c => htrans _ _ _⟩
  refine ⟨?_, ?_, ?_⟩
  · have hsorted : List.Sorted (fun a b : AuthorInfo => le (keyOf a) (keyOf b) = true)
        (sortedList le token userSearch commitAuthor commits) := by
      unfold sortedList
      exact List.sorted_insertionSort _ _
    exact List.Pairwise.sublist (dedupStep_sublist _ [] []) hsorted
  · exact dedupStep_pairwise _ [] []
  · intro pre a post hdecomp ht hpre
    show a ∈ dedupStep (sortedList le token userSearch commitAuthor commits) [] []
    rw [hdecomp]
    exact dedupStep_first_login_kept pre a post [] [] ht (by simp) hpre

/-- ASCII comparator standing in for a concrete locale order. -/
def leStr (a b : String) : Bool :=
  decide (a ≤ b)

/-- Oracle that never finds a login (no token / failing lookups). -/
def noLookup (_e : String) : Option String :=
  none

/-- Two commits sharing one author email, plus a co-author. -/
def commitsEx : List Commit :=
  [⟨"h1", [⟨"Alice", "a@x"⟩, ⟨"Bob", "b@x"⟩]⟩, ⟨"h2", [⟨"Alice", "a@x"⟩]⟩]

/-- Witness for C2 at a concrete comparator and commit list. -/
theorem resolveAuthors_sorted_dedup_witness :
    sortedDedupSpec leStr "" noLookup noLookup commitsEx :=
  resolveAuthors_sorted_dedup leStr "" noLookup noLookup commitsEx
    (fun a b => by
      rcases le_total a b with h | h
      · exact Or.inl (by simpa [leStr] using h)
      · exact Or.inr (by simpa [leStr] using h))
    (fun a b c h1 h2 => by
      simp only [leStr, decide_eq_true_eq] at h1 h2 ⊢
      exact le_trans h1 h2)
